import Mathlib

/-!
Shallow embedding of `fewerpngbits` (src/main.rs): a PNG optimizer that masks
the low-order bits of every color channel byte, keeping only a requested
number of significant bits, with a midpoint bias OR-ed into the discarded
range.  Bytes are modelled as `Nat` values (`u8` values are `< 256`; the
bitwise operations `&&&`, `|||`, `^^^ 255`, `>>> 1` mirror the `u8`
operations exactly on that range and never overflow).  Buffers are
`List Nat`.  The CLI / IO prelude of `main` is modelled as a pure effect
trace.
-/

/-- The `SignificantBits` enum (src/main.rs lines 128-138). -/
inductive SignificantBits
  | Bits1
  | Bits2
  | Bits3
  | Bits4
  | Bits5
  | Bits6
  | Bits7
  | Bits8
deriving DecidableEq, Repr, Fintype

/-- The `TargetColors` enum (src/main.rs lines 200-206). -/
inductive TargetColors
  | L8
  | La8
  | Rgb8
  | Rgba8
deriving DecidableEq, Repr, Fintype

/-- `mask_bits::<MASK>` (src/main.rs lines 193-196):
`*byte = (*byte & MASK) | const { (!MASK) >> 1 }`.
The `u8` complement `!MASK` is `MASK ^^^ 255` for `MASK < 256`. -/
def mask_bits (MASK byte : Nat) : Nat :=
  (byte &&& MASK) ||| ((MASK ^^^ 255) >>> 1)

/-- `no_alpha::<MASK>` (src/main.rs lines 171-175): mask every byte. -/
def no_alpha (MASK : Nat) (bytes : List Nat) : List Nat :=
  bytes.map (mask_bits MASK)

/-- `rgba::<MASK>` (src/main.rs lines 177-184): `as_chunks_mut::<4>` masks
bytes 0,1,2 of each complete 4-byte chunk; the remainder (and byte 3 of each
chunk) is untouched. -/
def rgba : Nat → List Nat → List Nat
  | MASK, r :: g :: b :: a :: rest =>
      mask_bits MASK r :: mask_bits MASK g :: mask_bits MASK b :: a :: rgba MASK rest
  | _, bytes => bytes

/-- `la8::<MASK>` (src/main.rs lines 186-191): `as_chunks_mut::<2>` masks
byte 0 of each complete 2-byte chunk; byte 1 and the remainder are untouched. -/
def la8 : Nat → List Nat → List Nat
  | MASK, l :: a :: rest => mask_bits MASK l :: a :: la8 MASK rest
  | _, bytes => bytes

/-- `SignificantBits::run` (src/main.rs lines 141-197): dispatch on
`(target_colors, self)`; `Bits8` returns the buffer untouched, otherwise the
layout-specific masking function is applied with the per-bit-count mask
constant from the dispatch table. -/
def SignificantBits.run (self : SignificantBits) (bytes : List Nat)
    (target_colors : TargetColors) : List Nat :=
  match target_colors, self with
  | _, .Bits8 => bytes
  | .L8, .Bits1 | .Rgb8, .Bits1 => no_alpha 0b10000000 bytes
  | .L8, .Bits2 | .Rgb8, .Bits2 => no_alpha 0b11000000 bytes
  | .L8, .Bits3 | .Rgb8, .Bits3 => no_alpha 0b11100000 bytes
  | .L8, .Bits4 | .Rgb8, .Bits4 => no_alpha 0b11110000 bytes
  | .L8, .Bits5 | .Rgb8, .Bits5 => no_alpha 0b11111000 bytes
  | .L8, .Bits6 | .Rgb8, .Bits6 => no_alpha 0b11111100 bytes
  | .L8, .Bits7 | .Rgb8, .Bits7 => no_alpha 0b11111110 bytes
  | .La8, .Bits1 => la8 0b10000000 bytes
  | .La8, .Bits2 => la8 0b11000000 bytes
  | .La8, .Bits3 => la8 0b11100000 bytes
  | .La8, .Bits4 => la8 0b11110000 bytes
  | .La8, .Bits5 => la8 0b11111000 bytes
  | .La8, .Bits6 => la8 0b11111100 bytes
  | .La8, .Bits7 => la8 0b11111110 bytes
  | .Rgba8, .Bits1 => rgba 0b10000000 bytes
  | .Rgba8, .Bits2 => rgba 0b11000000 bytes
  | .Rgba8, .Bits3 => rgba 0b11100000 bytes
  | .Rgba8, .Bits4 => rgba 0b11110000 bytes
  | .Rgba8, .Bits5 => rgba 0b11111000 bytes
  | .Rgba8, .Bits6 => rgba 0b11111100 bytes
  | .Rgba8, .Bits7 => rgba 0b11111110 bytes

/-- Numeric value of a `SignificantBits` variant (1..8). -/
def bitsVal : SignificantBits → Nat
  | .Bits1 => 1
  | .Bits2 => 2
  | .Bits3 => 3
  | .Bits4 => 4
  | .Bits5 => 5
  | .Bits6 => 6
  | .Bits7 => 7
  | .Bits8 => 8

/-- The mask constant the dispatch table of `SignificantBits::run` pairs with
each bit count (for `Bits8` no mask is used; we pick 255, the identity mask). -/
def maskOf : SignificantBits → Nat
  | .Bits1 => 0b10000000
  | .Bits2 => 0b11000000
  | .Bits3 => 0b11100000
  | .Bits4 => 0b11110000
  | .Bits5 => 0b11111000
  | .Bits6 => 0b11111100
  | .Bits7 => 0b11111110
  | .Bits8 => 0b11111111

/-- The layout-specific masking routine chosen by `SignificantBits::run` for a
non-`Bits8` count: per-byte for `L8`/`Rgb8`, 2-byte chunks for `La8`, 4-byte
chunks for `Rgba8`. -/
def layoutApply : TargetColors → Nat → List Nat → List Nat
  | .L8, m, buf => no_alpha m buf
  | .Rgb8, m, buf => no_alpha m buf
  | .La8, m, buf => la8 m buf
  | .Rgba8, m, buf => rgba m buf

/-- Chunk size actually used by the masking code for each layout: `no_alpha`
iterates byte-wise (chunk 1) for `L8` and `Rgb8`, `la8` uses 2-byte chunks,
`rgba` uses 4-byte chunks. -/
def chunkSize : TargetColors → Nat
  | .L8 => 1
  | .La8 => 2
  | .Rgb8 => 1
  | .Rgba8 => 4

/-- Bytes per pixel of each layout (the pixel stride: 1, 2, 3, 4). -/
def pixelStride : TargetColors → Nat
  | .L8 => 1
  | .La8 => 2
  | .Rgb8 => 3
  | .Rgba8 => 4

/-- The spec's mask description: the 8-bit pattern with the top `k` bits set
and the remaining `8 - k` bits zero. -/
def specMask (k : Nat) : Nat :=
  (2 ^ k - 1) * 2 ^ (8 - k)

/-- The `image::ColorType` enum of the external `image` crate (the decoder's
reported color format), as matched by the code. -/
inductive ColorType
  | L8
  | La8
  | L16
  | La16
  | Rgb8
  | Rgba8
  | Rgb16
  | Rgba16
  | Rgb32F
  | Rgba32F
deriving DecidableEq, Repr, Fintype

/-- `impl TryFrom<ColorType> for TargetColors` (src/main.rs lines 219-231):
the four 8-bit formats map 1:1, everything else is returned as the error. -/
def tryFromColor : ColorType → Except ColorType TargetColors
  | .L8 => .ok .L8
  | .La8 => .ok .La8
  | .Rgb8 => .ok .Rgb8
  | .Rgba8 => .ok .Rgba8
  | value => .error value

/-- The `Error` enum (src/main.rs lines 275-299), payloads reduced to the
offending path (the `io::Error` / `ImageError` / `PngError` sources are
external and carry no information the claims need). -/
inductive ErrorTy
  | OpenRead (path : String)
  | Map (path : String)
  | Header (path : String)
  | ColorType (color : ColorType) (path : String)
  | Read (path : String)
  | Encode
  | Optimize
  | OpenWrite (path : String)
  | Write (path : String)
  | Seek (path : String)
  | Truncate (path : String)
deriving DecidableEq, Repr

/-- The color-type resolution step of `main` (src/main.rs lines 67-70): on
rejection the error carries the offending format and the input path. -/
def resolveTargetColors (c : ColorType) (input : String) :
    Except ErrorTy TargetColors :=
  match tryFromColor c with
  | .ok target_colors => .ok target_colors
  | .error color_type => .error (.ColorType color_type input)

/-- Rust `u8::is_ascii_whitespace`: space, tab, line feed, form feed,
carriage return (as trimmed by `str::trim_ascii`). -/
def isAsciiWs (c : Char) : Bool :=
  c = ' ' || c = '\t' || c = '\n' || c = '\x0C' || c = '\r'

/-- Rust `str::trim_ascii`: remove ASCII whitespace from both ends. -/
def trimAscii (s : List Char) : List Char :=
  ((s.dropWhile isAsciiWs).reverse.dropWhile isAsciiWs).reverse

/-- `impl FromStr for SignificantBits` (src/main.rs lines 233-249): match the
ASCII-trimmed input against the strings "1".."8". -/
def from_str (s : List Char) : Except (List Char) SignificantBits :=
  match trimAscii s with
  | ['1'] => .ok .Bits1
  | ['2'] => .ok .Bits2
  | ['3'] => .ok .Bits3
  | ['4'] => .ok .Bits4
  | ['5'] => .ok .Bits5
  | ['6'] => .ok .Bits6
  | ['7'] => .ok .Bits7
  | ['8'] => .ok .Bits8
  | _ => .error "expected value between 1 and 8".data

/-- The digit string each `SignificantBits` variant is parsed from. -/
def digitsOf : SignificantBits → List Char
  | .Bits1 => ['1']
  | .Bits2 => ['2']
  | .Bits3 => ['3']
  | .Bits4 => ['4']
  | .Bits5 => ['5']
  | .Bits6 => ['6']
  | .Bits7 => ['7']
  | .Bits8 => ['8']

/-- The CLI fields of `Args` (src/main.rs lines 256-273) that the prelude of
`main` inspects. -/
structure ArgsM where
  input : String
  output : Option String
  force : Bool
deriving DecidableEq, Repr

/-- Observable effects of the prelude of `main`, in order. -/
inductive Eff
  | eprintUsage
  | exitCode (code : Nat)
  | openReadInput (path : String)
  | mapInput (path : String)
  | openWriteOutput (path : String)
  | decodeInput (path : String)
deriving DecidableEq, Repr

/-- Does an effect open, read, or write a file (or decode its contents)? -/
def isFileEff : Eff → Bool
  | .eprintUsage => false
  | .exitCode _ => false
  | .openReadInput _ => true
  | .mapInput _ => true
  | .openWriteOutput _ => true
  | .decodeInput _ => true

/-- Effect trace of the prelude of `main` (src/main.rs lines 17-76): if no
output path is given and `force` is not set, print the usage hint and exit
with status 1; otherwise open and map the input, open the output file when a
path was given, then start decoding. -/
def mainPrelude (args : ArgsM) : List Eff :=
  if args.output.isNone ∧ args.force = false then
    [.eprintUsage, .exitCode 1]
  else
    [.openReadInput args.input, .mapInput args.input]
      ++ (match args.output with
          | some path => [.openWriteOutput path]
          | none => [])
      ++ [.decodeInput args.input]

/-! ## Helper lemmas -/

theorem twoStepInduction {P : List Nat → Prop} (h0 : P []) (h1 : ∀ x, P [x])
    (h2 : ∀ x y l, P l → P (x :: y :: l)) : ∀ l, P l
  | [] => h0
  | [x] => h1 x
  | x :: y :: l => h2 x y l (twoStepInduction h0 h1 h2 l)

theorem fourStepInduction {P : List Nat → Prop} (h0 : P []) (h1 : ∀ x, P [x])
    (h2 : ∀ x y, P [x, y]) (h3 : ∀ x y z, P [x, y, z])
    (h4 : ∀ x y z w l, P l → P (x :: y :: z :: w :: l)) : ∀ l, P l
  | [] => h0
  | [x] => h1 x
  | [x, y] => h2 x y
  | [x, y, z] => h3 x y z
  | x :: y :: z :: w :: l => h4 x y z w l (fourStepInduction h0 h1 h2 h3 h4 l)

theorem la8_length (m : Nat) : ∀ buf : List Nat, (la8 m buf).length = buf.length := by
  refine twoStepInduction rfl (fun x => rfl) ?_
  intro x y l ih
  simp [la8, ih]

theorem rgba_length (m : Nat) : ∀ buf : List Nat, (rgba m buf).length = buf.length := by
  refine fourStepInduction rfl (fun x => rfl) (fun x y => rfl) (fun x y z => rfl) ?_
  intro x y z w l ih
  simp [rgba, ih]

theorem la8_get (m : Nat) :
    ∀ (buf : List Nat) (i : Nat),
      (la8 m buf).get? i =
        if i % 2 = 0 ∧ i / 2 < buf.length / 2 then (buf.get? i).map (mask_bits m)
        else buf.get? i := by
  refine twoStepInduction ?_ ?_ ?_
  · intro i
    simp [la8]
  · intro x i
    have h : ¬ (i % 2 = 0 ∧ i / 2 < [x].length / 2) := by
      simp only [List.length_singleton]
      omega
    simp [la8, h]
  · intro x y l ih i
    match i with
    | 0 =>
      have h : (0 : Nat) % 2 = 0 ∧ 0 / 2 < (x :: y :: l).length / 2 := by
        refine ⟨rfl, ?_⟩
        simp only [List.length_cons]
        omega
      show (mask_bits m x :: y :: la8 m l).get? 0 = _
      rw [if_pos h]
      rfl
    | 1 =>
      have h : ¬ ((1 : Nat) % 2 = 0 ∧ 1 / 2 < (x :: y :: l).length / 2) := by omega
      show (mask_bits m x :: y :: la8 m l).get? 1 = _
      rw [if_neg h]
      rfl
    | n + 2 =>
      have hiff : ((n + 2) % 2 = 0 ∧ (n + 2) / 2 < (x :: y :: l).length / 2)
          ↔ (n % 2 = 0 ∧ n / 2 < l.length / 2) := by
        simp only [List.length_cons]
        omega
      show (mask_bits m x :: y :: la8 m l).get? (n + 2) = _
      rw [List.get?_cons_succ, List.get?_cons_succ, ih n,
        show (x :: y :: l : List Nat).get? (n + 2) = l.get? n from rfl]
      by_cases h : n % 2 = 0 ∧ n / 2 < l.length / 2
      · rw [if_pos h, if_pos (hiff.mpr h)]
      · rw [if_neg h, if_neg (fun hc => h (hiff.mp hc))]

theorem rgba_get (m : Nat) :
    ∀ (buf : List Nat) (i : Nat),
      (rgba m buf).get? i =
        if i % 4 ≠ 3 ∧ i / 4 < buf.length / 4 then (buf.get? i).map (mask_bits m)
        else buf.get? i := by
  refine fourStepInduction ?_ ?_ ?_ ?_ ?_
  · intro i
    simp [rgba]
  · intro x i
    have h : ¬ (i % 4 ≠ 3 ∧ i / 4 < [x].length / 4) := by
      simp only [List.length_singleton]
      omega
    simp [rgba, h]
  · intro x y i
    have h : ¬ (i % 4 ≠ 3 ∧ i / 4 < [x, y].length / 4) := by
      simp only [List.length_cons, List.length_nil]
      omega
    simp [rgba, h]
  · intro x y z i
    have h : ¬ (i % 4 ≠ 3 ∧ i / 4 < [x, y, z].length / 4) := by
      simp only [List.length_cons, List.length_nil]
      omega
    simp [rgba, h]
  · intro x y z w l ih i
    match i with
    | 0 =>
      have h : (0 : Nat) % 4 ≠ 3 ∧ 0 / 4 < (x :: y :: z :: w :: l).length / 4 := by
        refine ⟨by decide, ?_⟩
        simp only [List.length_cons]
        omega
      show (mask_bits m x :: mask_bits m y :: mask_bits m z :: w :: rgba m l).get? 0 = _
      rw [if_pos h]
      rfl
    | 1 =>
      have h : (1 : Nat) % 4 ≠ 3 ∧ 1 / 4 < (x :: y :: z :: w :: l).length / 4 := by
        refine ⟨by decide, ?_⟩
        simp only [List.length_cons]
        omega
      show (mask_bits m x :: mask_bits m y :: mask_bits m z :: w :: rgba m l).get? 1 = _
      rw [if_pos h]
      rfl
    | 2 =>
      have h : (2 : Nat) % 4 ≠ 3 ∧ 2 / 4 < (x :: y :: z :: w :: l).length / 4 := by
        refine ⟨by decide, ?_⟩
        simp only [List.length_cons]
        omega
      show (mask_bits m x :: mask_bits m y :: mask_bits m z :: w :: rgba m l).get? 2 = _
      rw [if_pos h]
      rfl
    | 3 =>
      have h : ¬ ((3 : Nat) % 4 ≠ 3 ∧ 3 / 4 < (x :: y :: z :: w :: l).length / 4) := by
        omega
      show (mask_bits m x :: mask_bits m y :: mask_bits m z :: w :: rgba m l).get? 3 = _
      rw [if_neg h]
      rfl
    | n + 4 =>
      have hiff : ((n + 4) % 4 ≠ 3 ∧ (n + 4) / 4 < (x :: y :: z :: w :: l).length / 4)
          ↔ (n % 4 ≠ 3 ∧ n / 4 < l.length / 4) := by
        simp only [List.length_cons]
        omega
      show (mask_bits m x :: mask_bits m y :: mask_bits m z :: w :: rgba m l).get? (n + 4) = _
      rw [List.get?_cons_succ, List.get?_cons_succ, List.get?_cons_succ,
        List.get?_cons_succ, ih n,
        show (x :: y :: z :: w :: l : List Nat).get? (n + 4) = l.get? n from rfl]
      by_cases h : n % 4 ≠ 3 ∧ n / 4 < l.length / 4
      · rw [if_pos h, if_pos (hiff.mpr h)]
      · rw [if_neg h, if_neg (fun hc => h (hiff.mp hc))]

theorem run_collapse (k : SignificantBits) (hk : k ≠ .Bits8) (tc : TargetColors)
    (buf : List Nat) : SignificantBits.run k buf tc = layoutApply tc (maskOf k) buf := by
  cases k <;> cases tc <;> first
    | rfl
    | exact absurd rfl hk

theorem or_and_or_cancel (v m b : Nat) :
    (((v &&& m) ||| b) &&& m) ||| b = (v &&& m) ||| b := by
  apply Nat.eq_of_testBit_eq
  intro i
  simp only [Nat.testBit_lor, Nat.testBit_land]
  cases v.testBit i <;> cases m.testBit i <;> cases b.testBit i <;> rfl

theorem mask_bits_self (m v : Nat) :
    mask_bits m (mask_bits m v) = mask_bits m v := by
  simp only [mask_bits]
  exact or_and_or_cancel v m ((m ^^^ 255) >>> 1)

theorem mask_absorb_pt (v m1 b1 m2 b2 : Nat) (h1 : m2 &&& m1 = m1)
    (h2 : b2 &&& m1 = 0) :
    (((v &&& m2) ||| b2) &&& m1) ||| b1 = (v &&& m1) ||| b1 := by
  apply Nat.eq_of_testBit_eq
  intro i
  have h1' := congrArg (fun n => n.testBit i) h1
  have h2' := congrArg (fun n => n.testBit i) h2
  simp only [Nat.testBit_land, Nat.zero_testBit] at h1' h2'
  simp only [Nat.testBit_lor, Nat.testBit_land]
  cases hv : v.testBit i <;> cases hm2 : (m2).testBit i <;>
    cases hm1 : (m1).testBit i <;> cases hb2 : (b2).testBit i <;>
    simp_all

theorem mask_bits_absorb (m1 m2 : Nat) (h1 : m2 &&& m1 = m1)
    (h2 : ((m2 ^^^ 255) >>> 1) &&& m1 = 0) (v : Nat) :
    mask_bits m1 (mask_bits m2 v) = mask_bits m1 v := by
  simp only [mask_bits]
  exact mask_absorb_pt v m1 ((m1 ^^^ 255) >>> 1) m2 ((m2 ^^^ 255) >>> 1) h1 h2

theorem no_alpha_comp (m1 m2 : Nat)
    (h : ∀ v, mask_bits m1 (mask_bits m2 v) = mask_bits m1 v) (buf : List Nat) :
    no_alpha m1 (no_alpha m2 buf) = no_alpha m1 buf := by
  simp only [no_alpha, List.map_map]
  exact List.map_congr_left (fun v hv => h v)

theorem la8_comp (m1 m2 : Nat)
    (h : ∀ v, mask_bits m1 (mask_bits m2 v) = mask_bits m1 v) :
    ∀ buf : List Nat, la8 m1 (la8 m2 buf) = la8 m1 buf := by
  refine twoStepInduction rfl (fun x => rfl) ?_
  intro x y l ih
  show la8 m1 (mask_bits m2 x :: y :: la8 m2 l) = _
  show mask_bits m1 (mask_bits m2 x) :: y :: la8 m1 (la8 m2 l) = _
  rw [h, ih]
  rfl

theorem rgba_comp (m1 m2 : Nat)
    (h : ∀ v, mask_bits m1 (mask_bits m2 v) = mask_bits m1 v) :
    ∀ buf : List Nat, rgba m1 (rgba m2 buf) = rgba m1 buf := by
  refine fourStepInduction rfl (fun x => rfl) (fun x y => rfl) (fun x y z => rfl) ?_
  intro x y z w l ih
  show rgba m1 (mask_bits m2 x :: mask_bits m2 y :: mask_bits m2 z :: w :: rgba m2 l) = _
  show mask_bits m1 (mask_bits m2 x) :: mask_bits m1 (mask_bits m2 y) ::
    mask_bits m1 (mask_bits m2 z) :: w :: rgba m1 (rgba m2 l) = _
  rw [h, h, h, ih]
  rfl

theorem layoutApply_comp (tc : TargetColors) (m1 m2 : Nat)
    (h : ∀ v, mask_bits m1 (mask_bits m2 v) = mask_bits m1 v) (buf : List Nat) :
    layoutApply tc m1 (layoutApply tc m2 buf) = layoutApply tc m1 buf := by
  cases tc
  · exact no_alpha_comp m1 m2 h buf
  · exact la8_comp m1 m2 h buf
  · exact no_alpha_comp m1 m2 h buf
  · exact rgba_comp m1 m2 h buf

theorem maskOf_absorb : ∀ j k : SignificantBits, bitsVal j < bitsVal k →
    maskOf k &&& maskOf j = maskOf j ∧ ((maskOf k ^^^ 255) >>> 1) &&& maskOf j = 0 := by
  decide

theorem ne_bits8_of_lt : ∀ j k : SignificantBits, bitsVal j < bitsVal k →
    bitsVal k ≤ 7 → j ≠ .Bits8 ∧ k ≠ .Bits8 := by
  decide

/-! ## Claim theorems -/

/-- Claim C1: for every significant-bit count `k` in 1..=7, the masking
transform replaces a color byte `v` with `(v &&& mask) ||| bias`, where
`mask` is the 8-bit pattern with the top `k` bits set and
`bias = (complement of mask) >>> 1`; on input byte 0 the result is exactly
`bias`. -/
theorem c1_mask_formula (k : SignificantBits) (hk : bitsVal k ≤ 7) :
    (∀ v : Nat, mask_bits (maskOf k) v
        = (v &&& specMask (bitsVal k)) ||| ((specMask (bitsVal k) ^^^ 255) >>> 1))
    ∧ mask_bits (maskOf k) 0 = (specMask (bitsVal k) ^^^ 255) >>> 1 := by
  cases k <;> first
    | exact absurd hk (by decide)
    | exact ⟨fun v => rfl, rfl⟩

/-- Witness for C1 at `k = Bits2`, `v = 200`. -/
theorem c1_mask_formula_witness :
    mask_bits (maskOf .Bits2) 200
        = ((200 : Nat) &&& specMask (bitsVal .Bits2))
            ||| ((specMask (bitsVal .Bits2) ^^^ 255) >>> 1)
    ∧ mask_bits (maskOf .Bits2) 0 = (specMask (bitsVal .Bits2) ^^^ 255) >>> 1 :=
  ⟨(c1_mask_formula .Bits2 (by decide)).1 200, (c1_mask_formula .Bits2 (by decide)).2⟩

/-- Claim C3: with significant-bit count 8, the transform is the identity on
every buffer under every layout. -/
theorem c3_bits8_identity (buf : List Nat) (tc : TargetColors) :
    SignificantBits.run .Bits8 buf tc = buf := by
  cases tc <;> rfl

/-- Claim C4: the masking transform is idempotent: applying it twice with the
same bit count and layout equals applying it once. -/
theorem c4_idempotent (k : SignificantBits) (tc : TargetColors) (buf : List Nat) :
    SignificantBits.run k (SignificantBits.run k buf tc) tc
      = SignificantBits.run k buf tc := by
  by_cases hk : k = .Bits8
  · subst hk
    cases tc <;> rfl
  · have he := run_collapse k hk tc
    simp only [he]
    exact layoutApply_comp tc _ _ (mask_bits_self (maskOf k)) buf

/-- Claim C5: coarser masking absorbs finer masking: for bit counts
`j < k ≤ 7`, masking with `k` and then with `j` equals masking with `j`
directly. -/
theorem c5_absorb (j k : SignificantBits) (hjk : bitsVal j < bitsVal k)
    (hk : bitsVal k ≤ 7) (tc : TargetColors) (buf : List Nat) :
    SignificantBits.run j (SignificantBits.run k buf tc) tc
      = SignificantBits.run j buf tc := by
  obtain ⟨hj8, hk8⟩ := ne_bits8_of_lt j k hjk hk
  obtain ⟨h1, h2⟩ := maskOf_absorb j k hjk
  have hej := run_collapse j hj8 tc
  have hek := run_collapse k hk8 tc
  simp only [hej, hek]
  exact layoutApply_comp tc _ _ (mask_bits_absorb _ _ h1 h2) buf

/-- Witness for C5 at `j = Bits2`, `k = Bits5`, an `Rgba8` buffer. -/
theorem c5_absorb_witness :
    SignificantBits.run .Bits2 (SignificantBits.run .Bits5 [255, 128, 7, 9] .Rgba8) .Rgba8
      = SignificantBits.run .Bits2 [255, 128, 7, 9] .Rgba8 :=
  c5_absorb .Bits2 .Bits5 (by decide) (by decide) .Rgba8 [255, 128, 7, 9]

/-- Claim C2: layout-aware iteration, for every bit count in 1..=7: under
`L8` and `Rgb8` every byte is masked; under `La8` the buffer is processed in
2-byte pixels, masking only offset 0 and preserving offset 1 mod 2; under
`Rgba8` it is processed in 4-byte pixels, masking offsets 0,1,2 and
preserving offset 3 mod 4.  Lengths are always preserved. -/
theorem c2_layout_iteration (k : SignificantBits) (hk : k ≠ .Bits8) (buf : List Nat) :
    SignificantBits.run k buf .L8 = buf.map (mask_bits (maskOf k))
    ∧ SignificantBits.run k buf .Rgb8 = buf.map (mask_bits (maskOf k))
    ∧ (SignificantBits.run k buf .La8).length = buf.length
    ∧ (∀ i, i % 2 = 1 → (SignificantBits.run k buf .La8).get? i = buf.get? i)
    ∧ (∀ i, i % 2 = 0 → i / 2 < buf.length / 2 →
        (SignificantBits.run k buf .La8).get? i = (buf.get? i).map (mask_bits (maskOf k)))
    ∧ (SignificantBits.run k buf .Rgba8).length = buf.length
    ∧ (∀ i, i % 4 = 3 → (SignificantBits.run k buf .Rgba8).get? i = buf.get? i)
    ∧ (∀ i, i % 4 < 3 → i / 4 < buf.length / 4 →
        (SignificantBits.run k buf .Rgba8).get? i = (buf.get? i).map (mask_bits (maskOf k))) := by
  refine ⟨?_, ?_, ?_, ?_, ?_, ?_, ?_, ?_⟩
  · rw [run_collapse k hk]
    rfl
  · rw [run_collapse k hk]
    rfl
  · rw [run_collapse k hk]
    exact la8_length (maskOf k) buf
  · intro i hi
    rw [run_collapse k hk]
    show (la8 (maskOf k) buf).get? i = _
    rw [la8_get, if_neg (by omega)]
  · intro i h0 hlt
    rw [run_collapse k hk]
    show (la8 (maskOf k) buf).get? i = _
    rw [la8_get, if_pos ⟨h0, hlt⟩]
  · rw [run_collapse k hk]
    exact rgba_length (maskOf k) buf
  · intro i hi
    rw [run_collapse k hk]
    show (rgba (maskOf k) buf).get? i = _
    rw [rgba_get, if_neg (by omega)]
  · intro i h3 hlt
    rw [run_collapse k hk]
    show (rgba (maskOf k) buf).get? i = _
    rw [rgba_get, if_pos ⟨by omega, hlt⟩]

/-- Witness for C2 at `k = Bits3` on small concrete buffers. -/
theorem c2_layout_iteration_witness :
    SignificantBits.run .Bits3 [250, 3] .L8 = [250, 3].map (mask_bits (maskOf .Bits3))
    ∧ (SignificantBits.run .Bits3 [250, 3] .La8).get? 1 = ([250, 3] : List Nat).get? 1
    ∧ (SignificantBits.run .Bits3 [250, 3] .La8).get? 0
        = (([250, 3] : List Nat).get? 0).map (mask_bits (maskOf .Bits3))
    ∧ (SignificantBits.run .Bits3 [250, 3, 7, 8] .Rgba8).get? 3
        = ([250, 3, 7, 8] : List Nat).get? 3
    ∧ (SignificantBits.run .Bits3 [250, 3, 7, 8] .Rgba8).get? 1
        = (([250, 3, 7, 8] : List Nat).get? 1).map (mask_bits (maskOf .Bits3)) :=
  ⟨(c2_layout_iteration .Bits3 (by decide) [250, 3]).1,
   (c2_layout_iteration .Bits3 (by decide) [250, 3]).2.2.2.1 1 (by decide),
   (c2_layout_iteration .Bits3 (by decide) [250, 3]).2.2.2.2.1 0 (by decide) (by decide),
   (c2_layout_iteration .Bits3 (by decide) [250, 3, 7, 8]).2.2.2.2.2.2.1 3 (by decide),
   (c2_layout_iteration .Bits3 (by decide) [250, 3, 7, 8]).2.2.2.2.2.2.2 1 (by decide) (by decide)⟩

/-- Counterexample to claim C6 as stated: a 1-byte `Rgb8` buffer has
`length % pixelStride = 1 ≠ 0`, so its single byte lies in the trailing
partial pixel, yet the transform masks it: byte 0 becomes the bias 63
instead of staying 0. -/
theorem c6_counterexample :
    ([0] : List Nat).length % pixelStride .Rgb8 ≠ 0
    ∧ SignificantBits.run .Bits1 [0] .Rgb8 = [63] := by
  decide

/-- Claim C6 (amended): trailing bytes beyond the last complete processing
chunk are left unchanged, where the processing chunk size is 1 byte for `L8`
and `Rgb8` (every byte is a color byte, so no byte is ever trailing), 2 for
`La8`, and 4 for `Rgba8`. -/
theorem c6_amended (k : SignificantBits) (tc : TargetColors) (buf : List Nat)
    (i : Nat) (hi : buf.length - buf.length % chunkSize tc ≤ i) :
    (SignificantBits.run k buf tc).get? i = buf.get? i := by
  by_cases hk : k = .Bits8
  · subst hk
    cases tc <;> rfl
  · rw [run_collapse k hk]
    cases tc
    · have hlen : buf.length ≤ i := by
        simp only [chunkSize] at hi
        omega
      show (no_alpha (maskOf k) buf).get? i = _
      rw [List.get?_len_le (by simpa [no_alpha] using hlen), List.get?_len_le hlen]
    · show (la8 (maskOf k) buf).get? i = _
      rw [la8_get, if_neg (by simp only [chunkSize] at hi; omega)]
    · have hlen : buf.length ≤ i := by
        simp only [chunkSize] at hi
        omega
      show (no_alpha (maskOf k) buf).get? i = _
      rw [List.get?_len_le (by simpa [no_alpha] using hlen), List.get?_len_le hlen]
    · show (rgba (maskOf k) buf).get? i = _
      rw [rgba_get, if_neg (by simp only [chunkSize] at hi; omega)]

/-- Witness for the amended C6: the trailing odd byte of a 3-byte `La8`
buffer is preserved. -/
theorem c6_amended_witness :
    (SignificantBits.run .Bits1 [1, 2, 3] .La8).get? 2 = ([1, 2, 3] : List Nat).get? 2 :=
  c6_amended .Bits1 .La8 [1, 2, 3] 2 (by decide)

set_option maxRecDepth 4096 in
/-- Claim C10: the quantization error is centered: for every byte `v` and bit
count `k` in 1..=7, the masked result differs from `v` by at least
`-(2 ^ (8 - k - 1))` and at most `2 ^ (8 - k - 1) - 1`. -/
theorem c10_centered_error (k : SignificantBits) (hk : bitsVal k ≤ 7)
    (v : Nat) (hv : v < 256) :
    -(2 ^ (8 - bitsVal k - 1) : Int) ≤ (mask_bits (maskOf k) v : Int) - (v : Int)
    ∧ (mask_bits (maskOf k) v : Int) - (v : Int) ≤ 2 ^ (8 - bitsVal k - 1) - 1 := by
  cases k <;> first
    | exact absurd hk (by decide)
    | (revert v; decide)

/-- Witness for C10 at `k = Bits6`, `v = 200`. -/
theorem c10_centered_error_witness :
    -(2 ^ (8 - bitsVal .Bits6 - 1) : Int)
        ≤ (mask_bits (maskOf .Bits6) 200 : Int) - ((200 : Nat) : Int)
    ∧ (mask_bits (maskOf .Bits6) 200 : Int) - ((200 : Nat) : Int)
        ≤ 2 ^ (8 - bitsVal .Bits6 - 1) - 1 :=
  c10_centered_error .Bits6 (by decide) 200 (by decide)

/-- Claim C7: the layout resolver accepts exactly `L8`, `La8`, `Rgb8`,
`Rgba8`, mapping each 1:1 to a layout; for every other color format it
returns an error carrying the offending format, and the pipeline step
attaches the source path.  The resolver is a pure lookup. -/
theorem c7_color_resolver :
    tryFromColor .L8 = .ok .L8
    ∧ tryFromColor .La8 = .ok .La8
    ∧ tryFromColor .Rgb8 = .ok .Rgb8
    ∧ tryFromColor .Rgba8 = .ok .Rgba8
    ∧ (∀ c : ColorType, c ≠ .L8 → c ≠ .La8 → c ≠ .Rgb8 → c ≠ .Rgba8 →
        tryFromColor c = .error c)
    ∧ (∀ c : ColorType, ∀ p : String, tryFromColor c = .error c →
        resolveTargetColors c p = .error (.ColorType c p)) := by
  refine ⟨rfl, rfl, rfl, rfl, ?_, ?_⟩
  · intro c h1 h2 h3 h4
    cases c <;> first
      | exact absurd rfl h1
      | exact absurd rfl h2
      | exact absurd rfl h3
      | exact absurd rfl h4
      | rfl
  · intro c p h
    unfold resolveTargetColors
    rw [h]

/-- Witness for C7 at the rejected format `L16`. -/
theorem c7_color_resolver_witness :
    tryFromColor .L16 = .error .L16
    ∧ resolveTargetColors .L16 "input.png" = .error (.ColorType .L16 "input.png") :=
  ⟨c7_color_resolver.2.2.2.2.1 .L16 (by decide) (by decide) (by decide) (by decide),
   c7_color_resolver.2.2.2.2.2 .L16 "input.png"
     (c7_color_resolver.2.2.2.2.1 .L16 (by decide) (by decide) (by decide) (by decide))⟩

/-- Counterexample to claim C8 as stated: the input string " 1" is not one of
the strings "1".."8", yet parsing succeeds (the code trims ASCII whitespace
first), so it is not the case that every other input string fails. -/
theorem c8_counterexample :
    from_str [' ', '1'] = .ok .Bits1
    ∧ [' ', '1'] ∉ ([['1'], ['2'], ['3'], ['4'], ['5'], ['6'], ['7'], ['8']] :
        List (List Char)) :=
  ⟨rfl, by decide⟩

/-- Claim C8 (amended): parsing the `--bits` argument succeeds exactly for
strings whose ASCII-whitespace-trimmed content is one of "1".."8", yielding
the corresponding `SignificantBits` variant; every other string fails with
the parse error message; the default string "6" parses to `Bits6`. -/
theorem c8_amended :
    (∀ s : List Char, ∀ b : SignificantBits,
        from_str s = .ok b ↔ trimAscii s = digitsOf b)
    ∧ (∀ s : List Char, (∀ b : SignificantBits, trimAscii s ≠ digitsOf b) →
        from_str s = .error "expected value between 1 and 8".data)
    ∧ from_str "6".data = .ok .Bits6 := by
  refine ⟨?_, ?_, rfl⟩
  · intro s b
    constructor
    · intro h
      unfold from_str at h
      split at h <;> cases b <;> simp_all [digitsOf]
    · intro h
      cases b <;> (simp only [digitsOf] at h; unfold from_str; rw [h]; try rfl)
  · intro s hb
    unfold from_str
    split <;> first
      | rfl
      | (rename_i heq
         first
           | exact absurd heq (hb .Bits1)
           | exact absurd heq (hb .Bits2)
           | exact absurd heq (hb .Bits3)
           | exact absurd heq (hb .Bits4)
           | exact absurd heq (hb .Bits5)
           | exact absurd heq (hb .Bits6)
           | exact absurd heq (hb .Bits7)
           | exact absurd heq (hb .Bits8))

/-- Witness for the amended C8: " 7" parses to `Bits7`, and "9" fails. -/
theorem c8_amended_witness :
    (from_str [' ', '7'] = .ok .Bits7 ↔ trimAscii [' ', '7'] = digitsOf .Bits7)
    ∧ from_str ['9'] = .error "expected value between 1 and 8".data :=
  ⟨c8_amended.1 [' ', '7'] .Bits7,
   c8_amended.2.1 ['9'] (by decide)⟩

/-- Claim C9: with no output path and `force` unset, `main` reports the usage
error and exits with status 1; its effect trace contains no file operation
(nothing is opened, mapped, decoded, or written). -/
theorem c9_usage_error (args : ArgsM) (hout : args.output = none)
    (hforce : args.force = false) :
    mainPrelude args = [.eprintUsage, .exitCode 1]
    ∧ ∀ e ∈ mainPrelude args, isFileEff e = false := by
  have h : mainPrelude args = [.eprintUsage, .exitCode 1] := by
    unfold mainPrelude
    rw [if_pos ⟨by rw [hout]; rfl, hforce⟩]
  refine ⟨h, ?_⟩
  rw [h]
  intro e he
  simp only [List.mem_cons, List.not_mem_nil, or_false] at he
  rcases he with rfl | rfl <;> rfl

/-- Witness for C9 at a concrete argument vector. -/
theorem c9_usage_error_witness :
    mainPrelude ⟨"in.png", none, false⟩ = [.eprintUsage, .exitCode 1]
    ∧ isFileEff .eprintUsage = false :=
  ⟨(c9_usage_error ⟨"in.png", none, false⟩ rfl rfl).1,
   (c9_usage_error ⟨"in.png", none, false⟩ rfl rfl).2 .eprintUsage
     (by rw [(c9_usage_error ⟨"in.png", none, false⟩ rfl rfl).1]; exact List.mem_cons_self _ _)⟩
